import Mathlib

set_option linter.unusedSectionVars false
set_option linter.unusedVariables false

/-!
Shallow embedding of `src/index.ts` (`SizeLimitedMap`): a JS `Map` with a
fixed max size that, when a new key is added while full, evicts the oldest
entry by advancing a long-lived keys iterator.

The ECMAScript `Map` is modelled by its internal entry list: a list of
slots, where a deleted (or cleared) slot is `none` and a live slot is
`some (k, v)`.  `Map.prototype.delete` empties the matching slot in place,
`Map.prototype.clear` empties every slot, and `set` on a fresh key appends
a slot, so slot positions are stable.  A `Map` keys iterator is an index
into this list plus a finished flag, and is live: `next()` scans forward
from the saved index, skipping emptied slots, and also reaches slots
appended after the iterator's creation; once it reports done it stays
done.  JS numbers are modelled as rationals extended with NaN and the two
infinities (the capacity validation only compares numbers, so no
floating-point rounding is involved).
-/

namespace FixedSizeMap

variable {K V : Type} [DecidableEq K]

/-- The live entries of a JS `Map` entry list, in insertion order: the
observable contents of the map. -/
def liveEntries (l : List (Option (K × V))) : List (K × V) := l.filterMap id

/-- `Map.prototype.has` on the entry list. -/
def mapHas : List (Option (K × V)) → K → Bool
  | [], _ => false
  | none :: rest, k => mapHas rest k
  | some (k', _) :: rest, k => k' = k || mapHas rest k

/-- `Map.prototype.get` on the entry list. -/
def mapGet : List (Option (K × V)) → K → Option V
  | [], _ => none
  | none :: rest, k => mapGet rest k
  | some (k', v') :: rest, k => if k' = k then some v' else mapGet rest k

/-- `Map.prototype.size`: the number of live slots. -/
def mapSize (l : List (Option (K × V))) : Nat := (liveEntries l).length

/-- `Map.prototype.set` on the entry list: overwrite the live slot holding
the key in place, or append a new slot. -/
def mapSetRaw : List (Option (K × V)) → K → V → List (Option (K × V))
  | [], k, v => [some (k, v)]
  | none :: rest, k, v => none :: mapSetRaw rest k v
  | some (k', v') :: rest, k, v =>
      if k' = k then some (k, v) :: rest else some (k', v') :: mapSetRaw rest k v

/-- `Map.prototype.delete` on the entry list: empty the live slot holding
the key, if any. -/
def mapDeleteRaw : List (Option (K × V)) → K → List (Option (K × V))
  | [], _ => []
  | none :: rest, k => none :: mapDeleteRaw rest k
  | some (k', v') :: rest, k =>
      if k' = k then none :: rest else some (k', v') :: mapDeleteRaw rest k

/-- `Map.prototype.clear` on the entry list: empty every slot (positions,
and hence saved iterator indices, stay meaningful). -/
def mapClearRaw (l : List (Option (K × V))) : List (Option (K × V)) :=
  l.map (fun _ => none)

/-- A `Map` keys iterator: the next slot index to visit and whether the
iterator has finished. -/
structure MapIter where
  index : Nat
  done : Bool
deriving DecidableEq

/-- The first live slot of an entry list, as an offset and a key. -/
def findLive : List (Option (K × V)) → Option (Nat × K)
  | [] => none
  | none :: rest => (findLive rest).map (fun p => (p.1 + 1, p.2))
  | some (k, _) :: _ => some (0, k)

/-- `next()` on a keys iterator over the entry list: scan forward from the
saved index, skipping emptied slots; yield the key found and record the
position one past it, or finish.  A finished iterator stays finished. -/
def iterNext (l : List (Option (K × V))) (it : MapIter) : Option K × MapIter :=
  if it.done then (none, it)
  else
    match findLive (l.drop it.index) with
    | some (off, k) => (some k, ⟨it.index + off + 1, false⟩)
    | none => (none, ⟨it.index, true⟩)

/-- A JS number: NaN, an infinity, or a finite value. -/
inductive JSNum where
  | nan : JSNum
  | posInf : JSNum
  | negInf : JSNum
  | finite : ℚ → JSNum
deriving DecidableEq

/-- A JS value passed as the `maxSize` argument: a number or anything
else. -/
inductive JSValue where
  | number : JSNum → JSValue
  | notNumber : JSValue
deriving DecidableEq

/-- `Number.isNaN`. -/
def jsIsNaN : JSNum → Bool
  | .nan => true
  | _ => false

/-- The JS comparison `x < 1`. -/
def jsLtOne : JSNum → Bool
  | .nan => false
  | .posInf => false
  | .negInf => true
  | .finite q => q < 1

/-- `Number.isFinite`. -/
def jsIsFinite : JSNum → Bool
  | .finite _ => true
  | _ => false

/-- The rational value of a validated (finite) JS number. -/
def jsToRat : JSNum → ℚ
  | .finite q => q
  | _ => 0

/-- The state of a `SizeLimitedMap`: the validated max size, the backing
`Map`'s entry list, and the shared eviction iterator. -/
structure SizeLimitedMap (K V : Type) where
  maxSize : ℚ
  entries : List (Option (K × V))
  keysIterator : MapIter
deriving DecidableEq

namespace SizeLimitedMap

/-- `new Map(entries)`: insert each pair in order (a later duplicate key
overwrites in place). -/
def mapFromEntries (l : List (K × V)) : List (Option (K × V)) :=
  l.foldl (fun acc kv => mapSetRaw acc kv.1 kv.2) []

/-- The constructor: validate `maxSize`, build the backing map from the
initial entries (with no capacity enforcement), and create the keys
iterator. -/
def new (cap : JSValue) (entries : List (K × V)) :
    Except String (SizeLimitedMap K V) :=
  match cap with
  | .notNumber => Except.error "Cache size must be a number"
  | .number n =>
      if jsIsNaN n then Except.error "Cache size must be a number"
      else if jsLtOne n || !jsIsFinite n then
        Except.error "Cache size must at least be 1, and finite."
      else Except.ok ⟨jsToRat n, mapFromEntries entries, ⟨0, false⟩⟩

/-- The `size` accessor. -/
def size (s : SizeLimitedMap K V) : Nat := mapSize s.entries

/-- `get(key)`. -/
def get (s : SizeLimitedMap K V) (k : K) : Option V := mapGet s.entries k

/-- `has(key)`. -/
def has (s : SizeLimitedMap K V) (k : K) : Bool := mapHas s.entries k

/-- The eviction branch of `set` (`if (this.map.size >= this.maxSize)
this.map.delete(this.keysIterator.next().value)`): if the map is full,
advance the shared keys iterator and delete the key it yields (deleting
`undefined` is a no-op for the claims' key types when the iterator is
finished). -/
def evictIfFull (s : SizeLimitedMap K V) : SizeLimitedMap K V :=
  if s.maxSize ≤ (mapSize s.entries : ℚ) then
    match iterNext s.entries s.keysIterator with
    | (some k₀, it) =>
        { s with entries := mapDeleteRaw s.entries k₀, keysIterator := it }
    | (none, it) => { s with keysIterator := it }
  else s

/-- `set(key, value)`: overwrite in place if the key is present; otherwise
run the eviction branch and then insert the new entry at the end. -/
def set (s : SizeLimitedMap K V) (k : K) (v : V) : SizeLimitedMap K V :=
  if mapHas s.entries k then { s with entries := mapSetRaw s.entries k v }
  else
    { evictIfFull s with entries := mapSetRaw (evictIfFull s).entries k v }

/-- `delete(key)`: the returned flag and the new state.  The keys iterator
is not touched. -/
def delete (s : SizeLimitedMap K V) (k : K) : Bool × SizeLimitedMap K V :=
  (mapHas s.entries k, { s with entries := mapDeleteRaw s.entries k })

/-- `clear()`.  The keys iterator is not touched. -/
def clear (s : SizeLimitedMap K V) : SizeLimitedMap K V :=
  { s with entries := mapClearRaw s.entries }

/-- `keys()`: the current keys in insertion order. -/
def keysList (s : SizeLimitedMap K V) : List K :=
  (liveEntries s.entries).map Prod.fst

/-- `values()`: the current values in insertion order. -/
def valuesList (s : SizeLimitedMap K V) : List V :=
  (liveEntries s.entries).map Prod.snd

/-- `entries()`: the observable container state, in insertion order. -/
def entriesList (s : SizeLimitedMap K V) : List (K × V) :=
  liveEntries s.entries

end SizeLimitedMap

/-- A public mutating call. -/
inductive Op (K V : Type) where
  | set : K → V → Op K V
  | del : K → Op K V
  | clear : Op K V
deriving DecidableEq

/-- One public mutating call, applied to the state. -/
def step (s : SizeLimitedMap K V) : Op K V → SizeLimitedMap K V
  | .set k v => s.set k v
  | .del k => (s.delete k).2
  | .clear => s.clear

/-- A sequence of public mutating calls. -/
def runOps (s : SizeLimitedMap K V) (ops : List (Op K V)) : SizeLimitedMap K V :=
  ops.foldl step s

/-- The freshly constructed state for a positive integral capacity:
`new(c)` with no initial entries. -/
def fresh (c : ℕ) : SizeLimitedMap K V := ⟨(c : ℚ), [], ⟨0, false⟩⟩

/-- Modelled from the spec: the reference model's membership test on its
explicit queue of live entries. -/
def refHas (q : List (K × V)) (k : K) : Bool := q.any (fun kv => kv.1 = k)

/-- Modelled from the spec: reference `set` on the explicit ordered queue —
overwrite in place, or append, evicting the queue head whenever inserting a
new key would exceed the capacity `N`. -/
def refSet (N : ℕ) (q : List (K × V)) (k : K) (v : V) : List (K × V) :=
  if refHas q k then q.map (fun kv => if kv.1 = k then (k, v) else kv)
  else if N ≤ q.length then q.drop 1 ++ [(k, v)]
  else q ++ [(k, v)]

/-- Modelled from the spec: reference `delete` removes the key from the
queue. -/
def refDel : List (K × V) → K → List (K × V)
  | [], _ => []
  | kv :: rest, k => if kv.1 = k then refDel rest k else kv :: refDel rest k

/-- Reference lookup on the explicit queue: the value of the first entry
with the key. -/
def refGet : List (K × V) → K → Option V
  | [], _ => none
  | kv :: rest, k => if kv.1 = k then some kv.2 else refGet rest k

/-- Modelled from the spec: one reference-model step (`clear` empties the
queue). -/
def refStep (N : ℕ) (q : List (K × V)) : Op K V → List (K × V)
  | .set k v => refSet N q k v
  | .del k => refDel q k
  | .clear => []

/-- A sequence of reference-model steps. -/
def refRun (N : ℕ) (q : List (K × V)) (ops : List (Op K V)) : List (K × V) :=
  ops.foldl (refStep N) q

/-- An operation that neither overwrites nor deletes the key `k` (`clear`
is allowed: it removes `k`, after which the conclusion is vacuous). -/
def UntouchedBy (k : K) : Op K V → Prop
  | .set k' _ => k' ≠ k
  | .del k' => k' ≠ k
  | .clear => True

instance decidableUntouchedBy (k : K) (op : Op K V) : Decidable (UntouchedBy k op) :=
  match op with
  | .set k' _ => inferInstanceAs (Decidable (k' ≠ k))
  | .del k' => inferInstanceAs (Decidable (k' ≠ k))
  | .clear => inferInstanceAs (Decidable True)

/-- The invariant every reachable `SizeLimitedMap` state satisfies: the
capacity is a positive integer, the iterator is not finished, every slot
before the iterator's index is dead, the index is in range, the size is
bounded, and the live keys are distinct. -/
structure Inv (c : ℕ) (s : SizeLimitedMap K V) : Prop where
  cap_pos : 1 ≤ c
  max_eq : s.maxSize = (c : ℚ)
  not_done : s.keysIterator.done = false
  index_le : s.keysIterator.index ≤ s.entries.length
  prefix_dead : ∀ e ∈ s.entries.take s.keysIterator.index, e = none
  size_le : mapSize s.entries ≤ c
  nodup : ((liveEntries s.entries).map Prod.fst).Nodup

/-! ### Basic facts about the entry-list model -/

@[simp] lemma liveEntries_nil : liveEntries ([] : List (Option (K × V))) = [] := rfl

@[simp] lemma liveEntries_cons_none (l : List (Option (K × V))) :
    liveEntries (none :: l) = liveEntries l := rfl

@[simp] lemma liveEntries_cons_some (kv : K × V) (l : List (Option (K × V))) :
    liveEntries (some kv :: l) = kv :: liveEntries l := rfl

lemma liveEntries_append (l₁ l₂ : List (Option (K × V))) :
    liveEntries (l₁ ++ l₂) = liveEntries l₁ ++ liveEntries l₂ :=
  List.filterMap_append l₁ l₂ id

lemma liveEntries_eq_nil_of_all_none (l : List (Option (K × V)))
    (h : ∀ e ∈ l, e = none) : liveEntries l = [] := by
  induction l with
  | nil => rfl
  | cons e rest ih =>
      have he : e = none := h e (by simp)
      subst he
      simpa using ih (fun e' he' => h e' (by simp [he']))

lemma mapHas_iff (l : List (Option (K × V))) (k : K) :
    mapHas l k = true ↔ k ∈ (liveEntries l).map Prod.fst := by
  induction l with
  | nil => simp [mapHas]
  | cons e rest ih =>
      cases e with
      | none => simpa [mapHas] using ih
      | some kv =>
          obtain ⟨k', v'⟩ := kv
          simp only [mapHas, Bool.or_eq_true, decide_eq_true_eq, liveEntries_cons_some,
            List.map_cons, List.mem_cons, ih]
          rw [eq_comm]

lemma mapHas_eq_refHas (l : List (Option (K × V))) (k : K) :
    mapHas l k = refHas (liveEntries l) k := by
  induction l with
  | nil => rfl
  | cons e rest ih =>
      cases e with
      | none => simpa [mapHas] using ih
      | some kv =>
          obtain ⟨k', v'⟩ := kv
          simp [mapHas, refHas, ih]

lemma refHas_iff (q : List (K × V)) (k : K) :
    refHas q k = true ↔ k ∈ q.map Prod.fst := by
  induction q with
  | nil => simp [refHas]
  | cons kv rest ih =>
      obtain ⟨k', v'⟩ := kv
      simp only [refHas, List.any_cons, Bool.or_eq_true, decide_eq_true_eq,
        List.map_cons, List.mem_cons] at ih ⊢
      rw [ih, eq_comm]

lemma mapSize_pos_of_has (l : List (Option (K × V))) (k : K)
    (h : mapHas l k = true) : 1 ≤ mapSize l := by
  rw [mapHas_iff] at h
  rcases hl : liveEntries l with _ | ⟨kv, rest⟩
  · rw [hl] at h; simp at h
  · simp [mapSize, hl]

/-! ### `set` on the entry list -/

lemma mapHas_cons_some_false (k' : K) (v' : V) (rest : List (Option (K × V)))
    (k : K) (h : mapHas (some (k', v') :: rest) k = false) :
    k' ≠ k ∧ mapHas rest k = false := by
  simp only [mapHas, Bool.or_eq_false_iff, decide_eq_false_iff_not] at h
  exact h

lemma mapHas_cons_some_true (k' : K) (v' : V) (rest : List (Option (K × V)))
    (k : K) (hk : k' ≠ k) (h : mapHas (some (k', v') :: rest) k = true) :
    mapHas rest k = true := by
  simp only [mapHas, Bool.or_eq_true, decide_eq_true_eq] at h
  rcases h with h | h
  · exact absurd h hk
  · exact h

lemma mapSetRaw_of_not_has (l : List (Option (K × V))) (k : K) (v : V)
    (h : mapHas l k = false) : mapSetRaw l k v = l ++ [some (k, v)] := by
  induction l with
  | nil => rfl
  | cons e rest ih =>
      cases e with
      | none =>
          simp only [mapHas] at h
          simp [mapSetRaw, ih h]
      | some kv =>
          obtain ⟨k', v'⟩ := kv
          obtain ⟨h1, h2⟩ := mapHas_cons_some_false k' v' rest k h
          simp [mapSetRaw, h1, ih h2]

lemma map_upd_of_not_mem (q : List (K × V)) (k : K) (v : V)
    (h : k ∉ q.map Prod.fst) :
    q.map (fun kv => if kv.1 = k then (k, v) else kv) = q := by
  induction q with
  | nil => rfl
  | cons kv rest ih =>
      rw [List.map_cons, List.mem_cons, not_or] at h
      rw [List.map_cons, if_neg (fun hh => h.1 hh.symm), ih h.2]

lemma mapSetRaw_of_has (l : List (Option (K × V))) (k : K) (v : V)
    (hnd : ((liveEntries l).map Prod.fst).Nodup) (h : mapHas l k = true) :
    liveEntries (mapSetRaw l k v)
      = (liveEntries l).map (fun kv => if kv.1 = k then (k, v) else kv) := by
  induction l with
  | nil => simp [mapHas] at h
  | cons e rest ih =>
      cases e with
      | none =>
          simp only [mapHas] at h
          simp only [liveEntries_cons_none] at hnd ⊢
          simpa [mapSetRaw] using ih hnd h
      | some kv =>
          obtain ⟨k', v'⟩ := kv
          simp only [liveEntries_cons_some, List.map_cons, List.nodup_cons] at hnd
          by_cases hk : k' = k
          · subst hk
            simp [mapSetRaw, map_upd_of_not_mem _ _ v hnd.1]
          · have h' := mapHas_cons_some_true k' v' rest k hk h
            simp [mapSetRaw, hk, ih hnd.2 h']

lemma keys_map_upd (q : List (K × V)) (k : K) (v : V) :
    (q.map (fun kv => if kv.1 = k then (k, v) else kv)).map Prod.fst
      = q.map Prod.fst := by
  induction q with
  | nil => rfl
  | cons kv rest ih => by_cases hk : kv.1 = k <;> simp [hk, ih]

lemma mapGet_setRaw_self (l : List (Option (K × V))) (k : K) (v : V) :
    mapGet (mapSetRaw l k v) k = some v := by
  induction l with
  | nil => simp [mapSetRaw, mapGet]
  | cons e rest ih =>
      cases e with
      | none => simpa [mapSetRaw, mapGet] using ih
      | some kv =>
          obtain ⟨k', v'⟩ := kv
          by_cases hk : k' = k
          · simp [mapSetRaw, hk, mapGet]
          · simp [mapSetRaw, hk, mapGet, ih]

lemma mapGet_setRaw_ne (l : List (Option (K × V))) (k k' : K) (v : V)
    (h : k' ≠ k) : mapGet (mapSetRaw l k v) k' = mapGet l k' := by
  induction l with
  | nil => simp [mapSetRaw, mapGet, Ne.symm h]
  | cons e rest ih =>
      cases e with
      | none => simpa [mapSetRaw, mapGet] using ih
      | some kv =>
          obtain ⟨k'', v''⟩ := kv
          by_cases hk : k'' = k
          · subst hk
            simp [mapSetRaw, mapGet, Ne.symm h]
          · by_cases hk' : k'' = k' <;> simp [mapSetRaw, mapGet, hk, hk', ih, h]

lemma mapHas_setRaw_self (l : List (Option (K × V))) (k : K) (v : V) :
    mapHas (mapSetRaw l k v) k = true := by
  induction l with
  | nil => simp [mapSetRaw, mapHas]
  | cons e rest ih =>
      cases e with
      | none => simpa [mapSetRaw, mapHas] using ih
      | some kv =>
          obtain ⟨k', v'⟩ := kv
          by_cases hk : k' = k <;> simp [mapSetRaw, mapHas, hk, ih]

lemma length_setRaw_of_has (l : List (Option (K × V))) (k : K) (v : V)
    (h : mapHas l k = true) : (mapSetRaw l k v).length = l.length := by
  induction l with
  | nil => simp [mapHas] at h
  | cons e rest ih =>
      cases e with
      | none =>
          simp only [mapHas] at h
          simp [mapSetRaw, ih h]
      | some kv =>
          obtain ⟨k', v'⟩ := kv
          by_cases hk : k' = k
          · simp [mapSetRaw, hk]
          · have h' := mapHas_cons_some_true k' v' rest k hk h
            simp [mapSetRaw, hk, ih h']

lemma take_setRaw_dead (l : List (Option (K × V))) (k : K) (v : V) (i : Nat)
    (hi : i ≤ l.length) (h : ∀ e ∈ l.take i, e = none) :
    ∀ e ∈ (mapSetRaw l k v).take i, e = none := by
  induction l generalizing i with
  | nil =>
      have hz : i = 0 := Nat.le_zero.mp (by simpa using hi)
      subst hz
      simp
  | cons e rest ih =>
      match i with
      | 0 => simp
      | i + 1 =>
          cases e with
          | none =>
              intro e' he'
              simp only [mapSetRaw, List.take_succ_cons, List.mem_cons] at he'
              rcases he' with rfl | he'
              · rfl
              · exact ih i (by simpa using hi)
                  (fun e'' he'' => h e'' (by simp [List.take_succ_cons, he''])) e' he'
          | some kv =>
              have h0 : some kv = none := h (some kv) (by simp [List.take_succ_cons])
              exact absurd h0 (by simp)

/-! ### `delete` and `clear` on the entry list -/

lemma mapDeleteRaw_of_not_has (l : List (Option (K × V))) (k : K)
    (h : mapHas l k = false) : mapDeleteRaw l k = l := by
  induction l with
  | nil => rfl
  | cons e rest ih =>
      cases e with
      | none =>
          simp only [mapHas] at h
          simp [mapDeleteRaw, ih h]
      | some kv =>
          obtain ⟨k', v'⟩ := kv
          obtain ⟨h1, h2⟩ := mapHas_cons_some_false k' v' rest k h
          simp [mapDeleteRaw, h1, ih h2]

lemma length_deleteRaw (l : List (Option (K × V))) (k : K) :
    (mapDeleteRaw l k).length = l.length := by
  induction l with
  | nil => rfl
  | cons e rest ih =>
      cases e with
      | none => simp [mapDeleteRaw, ih]
      | some kv =>
          obtain ⟨k', v'⟩ := kv
          by_cases hk : k' = k <;> simp [mapDeleteRaw, hk, ih]

lemma mapSize_deleteRaw_of_has (l : List (Option (K × V))) (k : K)
    (h : mapHas l k = true) :
    mapSize l = mapSize (mapDeleteRaw l k) + 1 := by
  induction l with
  | nil => simp [mapHas] at h
  | cons e rest ih =>
      cases e with
      | none =>
          simp only [mapHas] at h
          simpa [mapDeleteRaw, mapSize] using ih h
      | some kv =>
          obtain ⟨k', v'⟩ := kv
          by_cases hk : k' = k
          · simp [mapDeleteRaw, hk, mapSize]
          · have h' := mapHas_cons_some_true k' v' rest k hk h
            simpa [mapDeleteRaw, hk, mapSize] using ih h'

lemma mapGet_deleteRaw_ne (l : List (Option (K × V))) (k k' : K)
    (h : k' ≠ k) : mapGet (mapDeleteRaw l k) k' = mapGet l k' := by
  induction l with
  | nil => rfl
  | cons e rest ih =>
      cases e with
      | none => simpa [mapDeleteRaw, mapGet] using ih
      | some kv =>
          obtain ⟨k'', v''⟩ := kv
          by_cases hk : k'' = k
          · subst hk
            simp [mapDeleteRaw, mapGet, Ne.symm h]
          · simp [mapDeleteRaw, mapGet, hk, ih]

lemma mapHas_deleteRaw_ne (l : List (Option (K × V))) (k k' : K)
    (h : k' ≠ k) : mapHas (mapDeleteRaw l k) k' = mapHas l k' := by
  induction l with
  | nil => rfl
  | cons e rest ih =>
      cases e with
      | none => simpa [mapDeleteRaw, mapHas] using ih
      | some kv =>
          obtain ⟨k'', v''⟩ := kv
          by_cases hk : k'' = k
          · subst hk
            simp [mapDeleteRaw, mapHas, Ne.symm h]
          · simp [mapDeleteRaw, mapHas, hk, ih]

lemma take_deleteRaw_dead (l : List (Option (K × V))) (k : K) (i : Nat)
    (h : ∀ e ∈ l.take i, e = none) :
    ∀ e ∈ (mapDeleteRaw l k).take i, e = none := by
  induction l generalizing i with
  | nil => simp [mapDeleteRaw]
  | cons e rest ih =>
      match i with
      | 0 => simp
      | i + 1 =>
          cases e with
          | none =>
              intro e' he'
              simp only [mapDeleteRaw, List.take_succ_cons, List.mem_cons] at he'
              rcases he' with rfl | he'
              · rfl
              · exact ih i
                  (fun e'' he'' => h e'' (by simp [List.take_succ_cons, he''])) e' he'
          | some kv =>
              have h0 : some kv = none := h (some kv) (by simp [List.take_succ_cons])
              exact absurd h0 (by simp)

lemma refDel_of_not_mem (q : List (K × V)) (k : K) (h : k ∉ q.map Prod.fst) :
    refDel q k = q := by
  induction q with
  | nil => rfl
  | cons kv rest ih =>
      rw [List.map_cons, List.mem_cons, not_or] at h
      have hne : ¬(kv.1 = k) := fun hh => h.1 hh.symm
      simp only [refDel, if_neg hne, ih h.2]

lemma refDel_sublist (q : List (K × V)) (k : K) : (refDel q k).Sublist q := by
  induction q with
  | nil => exact List.Sublist.refl []
  | cons kv rest ih =>
      by_cases hk : kv.1 = k
      · simp only [refDel, if_pos hk]
        exact ih.cons _
      · simp only [refDel, if_neg hk]
        exact ih.cons₂ _

lemma not_mem_refDel (q : List (K × V)) (k : K) :
    k ∉ (refDel q k).map Prod.fst := by
  induction q with
  | nil => simp [refDel]
  | cons kv rest ih =>
      by_cases hk : kv.1 = k
      · simpa [refDel, hk] using ih
      · simp only [refDel, if_neg hk, List.map_cons, List.mem_cons]
        rintro (h1 | h2)
        · exact hk h1.symm
        · exact ih h2

lemma liveEntries_deleteRaw (l : List (Option (K × V))) (k : K)
    (hnd : ((liveEntries l).map Prod.fst).Nodup) :
    liveEntries (mapDeleteRaw l k) = refDel (liveEntries l) k := by
  induction l with
  | nil => rfl
  | cons e rest ih =>
      cases e with
      | none => simpa [mapDeleteRaw] using ih (by simpa using hnd)
      | some kv =>
          obtain ⟨k', v'⟩ := kv
          simp only [liveEntries_cons_some, List.map_cons, List.nodup_cons] at hnd
          by_cases hk : k' = k
          · subst hk
            have e1 : mapDeleteRaw (some (k', v') :: rest) k' = none :: rest := by
              simp [mapDeleteRaw]
            have e2 : refDel ((k', v') :: liveEntries rest) k'
                = refDel (liveEntries rest) k' := by
              simp [refDel]
            rw [e1, liveEntries_cons_none, liveEntries_cons_some, e2,
              refDel_of_not_mem _ _ hnd.1]
          · have e1 : mapDeleteRaw (some (k', v') :: rest) k
                = some (k', v') :: mapDeleteRaw rest k := by
              simp [mapDeleteRaw, hk]
            have e2 : refDel ((k', v') :: liveEntries rest) k
                = (k', v') :: refDel (liveEntries rest) k := by
              simp [refDel, hk]
            rw [e1, liveEntries_cons_some, liveEntries_cons_some, e2, ih hnd.2]

lemma mapHas_deleteRaw_self (l : List (Option (K × V))) (k : K)
    (hnd : ((liveEntries l).map Prod.fst).Nodup) :
    mapHas (mapDeleteRaw l k) k = false := by
  have h : ¬(mapHas (mapDeleteRaw l k) k = true) := by
    rw [mapHas_iff, liveEntries_deleteRaw l k hnd]
    exact not_mem_refDel _ _
  simpa using h

lemma liveEntries_clearRaw (l : List (Option (K × V))) :
    liveEntries (mapClearRaw l) = [] := by
  apply liveEntries_eq_nil_of_all_none
  intro e he
  rcases List.mem_map.mp he with ⟨a, _, ha⟩
  exact ha.symm

lemma length_clearRaw (l : List (Option (K × V))) :
    (mapClearRaw l).length = l.length := List.length_map _ _

lemma take_clearRaw_dead (l : List (Option (K × V))) (i : Nat) :
    ∀ e ∈ (mapClearRaw l).take i, e = none := by
  intro e he
  have he' : e ∈ mapClearRaw l := List.mem_of_mem_take he
  rcases List.mem_map.mp he' with ⟨a, _, ha⟩
  exact ha.symm

/-! ### The live keys iterator -/

lemma findLive_of_live (l : List (Option (K × V))) (k : K) (v : V)
    (rest : List (K × V)) (h : liveEntries l = (k, v) :: rest) :
    ∃ j, findLive l = some (j, k)
      ∧ (∀ e ∈ l.take j, e = none)
      ∧ l[j]? = some (some (k, v))
      ∧ liveEntries (l.drop (j + 1)) = rest := by
  induction l with
  | nil => simp at h
  | cons e tail ih =>
      cases e with
      | none =>
          simp only [liveEntries_cons_none] at h
          obtain ⟨j, h1, h2, h3, h4⟩ := ih h
          refine ⟨j + 1, ?_, ?_, ?_, ?_⟩
          · simp [findLive, h1]
          · intro e' he'
            rw [List.take_succ_cons] at he'
            rcases List.mem_cons.mp he' with rfl | hm
            · rfl
            · exact h2 e' hm
          · simpa [List.getElem?_cons_succ] using h3
          · simpa [List.drop_succ_cons] using h4
      | some kv =>
          simp only [liveEntries_cons_some] at h
          injection h with h1 h2
          subst h1
          exact ⟨0, rfl, by simp, by simp, by simpa using h2⟩

lemma deleteRaw_at_first (l : List (Option (K × V))) (k : K) (v : V) (j : Nat)
    (hdead : ∀ e ∈ l.take j, e = none) (hj : l[j]? = some (some (k, v))) :
    mapDeleteRaw l k = l.take j ++ none :: l.drop (j + 1) := by
  induction l generalizing j with
  | nil => simp at hj
  | cons e tail ih =>
      match j with
      | 0 =>
          simp only [List.getElem?_cons_zero, Option.some.injEq] at hj
          subst hj
          simp [mapDeleteRaw]
      | j + 1 =>
          have he : e = none := hdead e (by simp [List.take_succ_cons])
          subst he
          simp only [List.getElem?_cons_succ] at hj
          have hd : ∀ e' ∈ tail.take j, e' = none := fun e' he' =>
            hdead e' (by simp [List.take_succ_cons, he'])
          simp [mapDeleteRaw, ih j hd hj, List.take_succ_cons, List.drop_succ_cons]

lemma liveEntries_drop_eq (l : List (Option (K × V))) (i : Nat)
    (h : ∀ e ∈ l.take i, e = none) :
    liveEntries (l.drop i) = liveEntries l := by
  conv_rhs => rw [← List.take_append_drop i l]
  rw [liveEntries_append, liveEntries_eq_nil_of_all_none _ h, List.nil_append]

/-- The eviction step: in an invariant state with a nonempty map, advancing
the keys iterator yields the oldest live key, and deleting it empties
exactly that slot, leaving the tail of the live entries and a dead prefix
up to the new iterator index. -/
lemma evict_step (c : ℕ) (s : SizeLimitedMap K V) (hinv : Inv c s)
    (k : K) (v : V) (rest : List (K × V))
    (hlive : liveEntries s.entries = (k, v) :: rest) :
    ∃ j, iterNext s.entries s.keysIterator = (some k, ⟨j + 1, false⟩)
      ∧ liveEntries (mapDeleteRaw s.entries k) = rest
      ∧ (∀ e ∈ (mapDeleteRaw s.entries k).take (j + 1), e = none)
      ∧ j + 1 ≤ s.entries.length := by
  have hdrop : liveEntries (s.entries.drop s.keysIterator.index) = (k, v) :: rest := by
    rw [liveEntries_drop_eq _ _ hinv.prefix_dead, hlive]
  obtain ⟨off, h1, h2, h3, h4⟩ := findLive_of_live _ k v rest hdrop
  have hij : s.entries[s.keysIterator.index + off]? = some (some (k, v)) := by
    rw [← h3, List.getElem?_drop]
  have hlt : s.keysIterator.index + off < s.entries.length := by
    rcases List.getElem?_eq_some.mp hij with ⟨hlt, _⟩
    exact hlt
  have hdead : ∀ e ∈ s.entries.take (s.keysIterator.index + off), e = none := by
    intro e he
    rw [List.take_add] at he
    rcases List.mem_append.mp he with hm | hm
    · exact hinv.prefix_dead e hm
    · exact h2 e hm
  have hdel := deleteRaw_at_first s.entries k v (s.keysIterator.index + off) hdead hij
  have hlen : (s.entries.take (s.keysIterator.index + off)).length
      = s.keysIterator.index + off := by
    rw [List.length_take]
    exact min_eq_left hlt.le
  refine ⟨s.keysIterator.index + off, ?_, ?_, ?_, by omega⟩
  · unfold iterNext
    rw [if_neg (by simp [hinv.not_done]), h1]
  · rw [hdel, liveEntries_append, liveEntries_eq_nil_of_all_none _ hdead,
      List.nil_append, liveEntries_cons_none]
    rw [show s.keysIterator.index + off + 1 = s.keysIterator.index + (off + 1) from by
      omega, ← List.drop_drop]
    exact h4
  · rw [hdel]
    intro e he
    rw [List.take_append_eq_append_take] at he
    rcases List.mem_append.mp he with hm | hm
    · exact hdead e (List.mem_of_mem_take hm)
    · rw [hlen, show s.keysIterator.index + off + 1 - (s.keysIterator.index + off) = 1
        from by omega] at hm
      simpa using hm

/-! ### Simulation between `SizeLimitedMap` and the reference model -/

lemma evictIfFull_of_full (s : SizeLimitedMap K V)
    (h : s.maxSize ≤ (mapSize s.entries : ℚ)) (k₀ : K) (it : MapIter)
    (hiter : iterNext s.entries s.keysIterator = (some k₀, it)) :
    SizeLimitedMap.evictIfFull s
      = { s with entries := mapDeleteRaw s.entries k₀, keysIterator := it } := by
  unfold SizeLimitedMap.evictIfFull
  rw [if_pos h, hiter]

lemma evictIfFull_of_not_full (s : SizeLimitedMap K V)
    (h : ¬ s.maxSize ≤ (mapSize s.entries : ℚ)) :
    SizeLimitedMap.evictIfFull s = s := by
  unfold SizeLimitedMap.evictIfFull
  rw [if_neg h]

lemma set_sim (c : ℕ) (s : SizeLimitedMap K V) (k : K) (v : V) (hinv : Inv c s) :
    Inv c (s.set k v)
      ∧ liveEntries (s.set k v).entries = refSet c (liveEntries s.entries) k v := by
  by_cases hh : mapHas s.entries k = true
  · -- overwrite in place
    have hset : s.set k v = { s with entries := mapSetRaw s.entries k v } := by
      unfold SizeLimitedMap.set
      rw [if_pos hh]
    have hle : liveEntries (mapSetRaw s.entries k v)
        = (liveEntries s.entries).map (fun kv => if kv.1 = k then (k, v) else kv) :=
      mapSetRaw_of_has _ _ _ hinv.nodup hh
    have href : refSet c (liveEntries s.entries) k v
        = (liveEntries s.entries).map (fun kv => if kv.1 = k then (k, v) else kv) := by
      unfold refSet
      rw [if_pos (by rw [← mapHas_eq_refHas]; exact hh)]
    rw [hset]
    refine ⟨⟨hinv.cap_pos, hinv.max_eq, hinv.not_done, ?_, ?_, ?_, ?_⟩, ?_⟩
    · show s.keysIterator.index ≤ (mapSetRaw s.entries k v).length
      rw [length_setRaw_of_has _ _ _ hh]
      exact hinv.index_le
    · exact take_setRaw_dead _ _ _ _ hinv.index_le hinv.prefix_dead
    · show (liveEntries (mapSetRaw s.entries k v)).length ≤ c
      rw [hle, List.length_map]
      exact hinv.size_le
    · show ((liveEntries (mapSetRaw s.entries k v)).map Prod.fst).Nodup
      rw [hle, keys_map_upd]
      exact hinv.nodup
    · show liveEntries (mapSetRaw s.entries k v) = refSet c (liveEntries s.entries) k v
      rw [hle, href]
  · -- new key
    have hh' : mapHas s.entries k = false := by simpa using hh
    by_cases hf : s.maxSize ≤ (mapSize s.entries : ℚ)
    · -- full: evict the oldest live key
      have hceq : mapSize s.entries = c := by
        have h1 : (c : ℚ) ≤ (mapSize s.entries : ℚ) := by rw [← hinv.max_eq]; exact hf
        have h2 : c ≤ mapSize s.entries := by exact_mod_cast h1
        have h3 := hinv.size_le
        omega
      have hpos : 0 < (liveEntries s.entries).length := by
        have h3 := hinv.cap_pos
        show 0 < mapSize s.entries
        omega
      rcases hl : liveEntries s.entries with _ | ⟨⟨k₀, v₀⟩, rest⟩
      · rw [hl] at hpos; simp at hpos
      obtain ⟨j, hiter, hrest, hdead, hjlen⟩ := evict_step c s hinv k₀ v₀ rest hl
      have hset : s.set k v
          = ⟨s.maxSize, mapSetRaw (mapDeleteRaw s.entries k₀) k v, ⟨j + 1, false⟩⟩ := by
        unfold SizeLimitedMap.set
        rw [if_neg (by simp [hh']), evictIfFull_of_full s hf k₀ _ hiter]
      have hnotk : mapHas (mapDeleteRaw s.entries k₀) k = false := by
        have h4 : ¬ (mapHas (mapDeleteRaw s.entries k₀) k = true) := by
          rw [mapHas_iff, hrest]
          intro hmem
          have hk2 : k ∈ (liveEntries s.entries).map Prod.fst := by
            rw [hl, List.map_cons]
            exact List.mem_cons_of_mem _ hmem
          rw [← mapHas_iff, hh'] at hk2
          exact Bool.false_ne_true hk2
        simpa using h4
      have hsetraw : mapSetRaw (mapDeleteRaw s.entries k₀) k v
          = mapDeleteRaw s.entries k₀ ++ [some (k, v)] :=
        mapSetRaw_of_not_has _ _ _ hnotk
      have hlive2 : liveEntries (mapSetRaw (mapDeleteRaw s.entries k₀) k v)
          = rest ++ [(k, v)] := by
        rw [hsetraw, liveEntries_append, hrest]
        rfl
      have hlen2 : c ≤ (liveEntries s.entries).length := by
        show c ≤ mapSize s.entries
        omega
      have href : refSet c (liveEntries s.entries) k v = rest ++ [(k, v)] := by
        unfold refSet
        rw [if_neg (by simp [show refHas (liveEntries s.entries) k = false from by
            rw [← mapHas_eq_refHas]; exact hh']),
          if_pos hlen2, hl, List.drop_one, List.tail_cons]
      have hknotin : k ∉ rest.map Prod.fst := by
        intro hmem
        have hk2 : k ∈ (liveEntries s.entries).map Prod.fst := by
          rw [hl, List.map_cons]
          exact List.mem_cons_of_mem _ hmem
        rw [← mapHas_iff, hh'] at hk2
        exact Bool.false_ne_true hk2
      have hrestlen : rest.length + 1 = c := by
        have h7 : (liveEntries s.entries).length = c := hceq
        rw [hl] at h7
        simpa using h7
      rw [hset]
      refine ⟨⟨hinv.cap_pos, hinv.max_eq, rfl, ?_, ?_, ?_, ?_⟩, ?_⟩
      · show j + 1 ≤ (mapSetRaw (mapDeleteRaw s.entries k₀) k v).length
        have h5 : (mapSetRaw (mapDeleteRaw s.entries k₀) k v).length
            = s.entries.length + 1 := by
          rw [hsetraw, List.length_append, length_deleteRaw]
          rfl
        omega
      · refine take_setRaw_dead _ _ _ _ ?_ hdead
        rw [length_deleteRaw]
        exact hjlen
      · show (liveEntries (mapSetRaw (mapDeleteRaw s.entries k₀) k v)).length ≤ c
        rw [hlive2, List.length_append]
        have h8 : ([((k : K), (v : V))] : List (K × V)).length = 1 := rfl
        omega
      · show ((liveEntries (mapSetRaw (mapDeleteRaw s.entries k₀) k v)).map
            Prod.fst).Nodup
        rw [hlive2, List.map_append]
        have hnd := hinv.nodup
        rw [hl, List.map_cons] at hnd
        rw [List.nodup_append]
        refine ⟨(List.nodup_cons.mp hnd).2, by simp, ?_⟩
        intro a ha hb
        rw [List.map_singleton, List.mem_singleton] at hb
        subst hb
        exact hknotin ha
      · show liveEntries (mapSetRaw (mapDeleteRaw s.entries k₀) k v)
            = refSet c ((k₀, v₀) :: rest) k v
        rw [hlive2, ← hl, href]
    · -- not full: plain append
      have hset : s.set k v = { s with entries := mapSetRaw s.entries k v } := by
        unfold SizeLimitedMap.set
        rw [if_neg (by simp [hh']), evictIfFull_of_not_full s hf]
      have hsetraw := mapSetRaw_of_not_has s.entries k v hh'
      have hlive2 : liveEntries (mapSetRaw s.entries k v)
          = liveEntries s.entries ++ [(k, v)] := by
        rw [hsetraw, liveEntries_append]
        rfl
      have hsz : mapSize s.entries < c := by
        have hf' := hf
        rw [hinv.max_eq, Nat.cast_le] at hf'
        omega
      have href : refSet c (liveEntries s.entries) k v
          = liveEntries s.entries ++ [(k, v)] := by
        unfold refSet
        rw [if_neg (by simp [show refHas (liveEntries s.entries) k = false from by
            rw [← mapHas_eq_refHas]; exact hh']),
          if_neg (by
            show ¬ (c ≤ (liveEntries s.entries).length)
            have h9 : (liveEntries s.entries).length = mapSize s.entries := rfl
            omega)]
      rw [hset]
      refine ⟨⟨hinv.cap_pos, hinv.max_eq, hinv.not_done, ?_, ?_, ?_, ?_⟩, ?_⟩
      · show s.keysIterator.index ≤ (mapSetRaw s.entries k v).length
        have h5 : (mapSetRaw s.entries k v).length = s.entries.length + 1 := by
          rw [hsetraw, List.length_append]
          rfl
        have h6 := hinv.index_le
        omega
      · exact take_setRaw_dead _ _ _ _ hinv.index_le hinv.prefix_dead
      · show (liveEntries (mapSetRaw s.entries k v)).length ≤ c
        rw [hlive2, List.length_append]
        have h9 : (liveEntries s.entries).length = mapSize s.entries := rfl
        have h8 : ([((k : K), (v : V))] : List (K × V)).length = 1 := rfl
        omega
      · show ((liveEntries (mapSetRaw s.entries k v)).map Prod.fst).Nodup
        rw [hlive2, List.map_append, List.nodup_append]
        refine ⟨hinv.nodup, by simp, ?_⟩
        intro a ha hb
        rw [List.map_singleton, List.mem_singleton] at hb
        subst hb
        rw [← mapHas_iff, hh'] at ha
        exact Bool.false_ne_true ha
      · show liveEntries (mapSetRaw s.entries k v) = refSet c (liveEntries s.entries) k v
        rw [hlive2, href]

lemma del_sim (c : ℕ) (s : SizeLimitedMap K V) (k : K) (hinv : Inv c s) :
    Inv c (s.delete k).2
      ∧ liveEntries (s.delete k).2.entries = refDel (liveEntries s.entries) k := by
  have hlive := liveEntries_deleteRaw s.entries k hinv.nodup
  refine ⟨⟨hinv.cap_pos, hinv.max_eq, hinv.not_done, ?_, ?_, ?_, ?_⟩, hlive⟩
  · show s.keysIterator.index ≤ (mapDeleteRaw s.entries k).length
    rw [length_deleteRaw]
    exact hinv.index_le
  · exact take_deleteRaw_dead _ _ _ hinv.prefix_dead
  · show (liveEntries (mapDeleteRaw s.entries k)).length ≤ c
    rw [hlive]
    exact le_trans (refDel_sublist _ _).length_le hinv.size_le
  · show ((liveEntries (mapDeleteRaw s.entries k)).map Prod.fst).Nodup
    rw [hlive]
    exact hinv.nodup.sublist ((refDel_sublist _ _).map Prod.fst)

lemma clear_sim (c : ℕ) (s : SizeLimitedMap K V) (hinv : Inv c s) :
    Inv c s.clear ∧ liveEntries s.clear.entries = [] := by
  refine ⟨⟨hinv.cap_pos, hinv.max_eq, hinv.not_done, ?_, ?_, ?_, ?_⟩,
    liveEntries_clearRaw s.entries⟩
  · show s.keysIterator.index ≤ (mapClearRaw s.entries).length
    rw [length_clearRaw]
    exact hinv.index_le
  · exact take_clearRaw_dead _ _
  · show (liveEntries (mapClearRaw s.entries)).length ≤ c
    rw [liveEntries_clearRaw]
    simp
  · show ((liveEntries (mapClearRaw s.entries)).map Prod.fst).Nodup
    rw [liveEntries_clearRaw]
    simp

lemma step_sim (c : ℕ) (s : SizeLimitedMap K V) (op : Op K V) (hinv : Inv c s) :
    Inv c (step s op)
      ∧ liveEntries (step s op).entries = refStep c (liveEntries s.entries) op := by
  cases op with
  | set k v => exact set_sim c s k v hinv
  | del k => exact del_sim c s k hinv
  | clear => exact clear_sim c s hinv

lemma run_sim (c : ℕ) (s : SizeLimitedMap K V) (ops : List (Op K V)) (hinv : Inv c s) :
    Inv c (runOps s ops)
      ∧ liveEntries (runOps s ops).entries = refRun c (liveEntries s.entries) ops := by
  induction ops generalizing s with
  | nil => exact ⟨hinv, rfl⟩
  | cons op rest ih =>
      obtain ⟨h1, h2⟩ := step_sim c s op hinv
      obtain ⟨h3, h4⟩ := ih (step s op) h1
      refine ⟨h3, ?_⟩
      show liveEntries (runOps (step s op) rest).entries
          = refRun c (refStep c (liveEntries s.entries) op) rest
      rw [← h2]
      exact h4

lemma inv_fresh (c : ℕ) (hc : 1 ≤ c) : Inv c (fresh (K := K) (V := V) c) := by
  refine ⟨hc, rfl, rfl, ?_, ?_, ?_, ?_⟩ <;> simp [fresh, mapSize]

lemma new_nat_ok (c : ℕ) (hc : 1 ≤ c) :
    SizeLimitedMap.new (JSValue.number (JSNum.finite (c : ℚ))) ([] : List (K × V))
      = Except.ok (fresh c) := by
  have h1 : ¬((c : ℚ) < 1) := by
    rw [not_lt]
    exact_mod_cast hc
  simp [SizeLimitedMap.new, jsIsNaN, jsLtOne, jsIsFinite, jsToRat, fresh,
    SizeLimitedMap.mapFromEntries, h1]

/-! ### Further facts used by individual claims -/

lemma refHas_cons (kv : K × V) (q : List (K × V)) (k : K) :
    refHas (kv :: q) k = (decide (kv.1 = k) || refHas q k) := rfl

lemma refGet_cons (kv : K × V) (q : List (K × V)) (k : K) :
    refGet (kv :: q) k = if kv.1 = k then some kv.2 else refGet q k := rfl

lemma mapGet_eq_refGet (l : List (Option (K × V))) (k : K) :
    mapGet l k = refGet (liveEntries l) k := by
  induction l with
  | nil => rfl
  | cons e rest ih =>
      cases e with
      | none => simpa [mapGet] using ih
      | some kv =>
          obtain ⟨k', v'⟩ := kv
          by_cases hk : k' = k <;> simp [mapGet, refGet_cons, hk, ih]

lemma mapHas_setRaw_ne (l : List (Option (K × V))) (k k' : K) (v : V)
    (h : k' ≠ k) : mapHas (mapSetRaw l k v) k' = mapHas l k' := by
  induction l with
  | nil => simp [mapSetRaw, mapHas, Ne.symm h]
  | cons e rest ih =>
      cases e with
      | none => simpa [mapSetRaw, mapHas] using ih
      | some kv =>
          obtain ⟨k'', v''⟩ := kv
          by_cases hk : k'' = k
          · subst hk
            simp [mapSetRaw, mapHas, ih]
          · simp [mapSetRaw, mapHas, hk, ih]

lemma mapSize_setRaw_of_has (l : List (Option (K × V))) (k : K) (v : V)
    (h : mapHas l k = true) : mapSize (mapSetRaw l k v) = mapSize l := by
  induction l with
  | nil => simp [mapHas] at h
  | cons e rest ih =>
      cases e with
      | none =>
          simp only [mapHas] at h
          simpa [mapSetRaw, mapSize] using ih h
      | some kv =>
          obtain ⟨k', v'⟩ := kv
          by_cases hk : k' = k
          · simp [mapSetRaw, hk, mapSize]
          · have h' := mapHas_cons_some_true k' v' rest k hk h
            simpa [mapSetRaw, hk, mapSize] using ih h'

lemma keys_setRaw_of_has (l : List (Option (K × V))) (k : K) (v : V)
    (h : mapHas l k = true) :
    (liveEntries (mapSetRaw l k v)).map Prod.fst
      = (liveEntries l).map Prod.fst := by
  induction l with
  | nil => simp [mapHas] at h
  | cons e rest ih =>
      cases e with
      | none =>
          simp only [mapHas] at h
          simpa [mapSetRaw] using ih h
      | some kv =>
          obtain ⟨k', v'⟩ := kv
          by_cases hk : k' = k
          · simp [mapSetRaw, hk]
          · have h' := mapHas_cons_some_true k' v' rest k hk h
            simp [mapSetRaw, hk, ih h']

lemma set_of_has (s : SizeLimitedMap K V) (k : K) (v : V)
    (h : mapHas s.entries k = true) :
    s.set k v = { s with entries := mapSetRaw s.entries k v } := by
  unfold SizeLimitedMap.set
  rw [if_pos h]

lemma set_entries_eq (s : SizeLimitedMap K V) (k : K) (v : V) :
    ∃ l, (s.set k v).entries = mapSetRaw l k v := by
  unfold SizeLimitedMap.set
  by_cases hh : mapHas s.entries k = true
  · rw [if_pos hh]
    exact ⟨s.entries, rfl⟩
  · rw [if_neg hh]
    exact ⟨(SizeLimitedMap.evictIfFull s).entries, rfl⟩

lemma delete_absent (s : SizeLimitedMap K V) (k : K)
    (h : mapHas s.entries k = false) : (s.delete k).2 = s := by
  show { s with entries := mapDeleteRaw s.entries k } = s
  rw [mapDeleteRaw_of_not_has s.entries k h]

lemma refGet_upd_ne (q : List (K × V)) (k' k : K) (v' : V) (h : k' ≠ k) :
    refGet (q.map (fun kv => if kv.1 = k' then (k', v') else kv)) k
      = refGet q k := by
  induction q with
  | nil => rfl
  | cons kv rest ih =>
      by_cases hk : kv.1 = k'
      · simp [refGet, hk, h, ih]
      · simp [refGet, hk, ih]

lemma refHas_upd (q : List (K × V)) (k' : K) (v' : V) (k : K) :
    refHas (q.map (fun kv => if kv.1 = k' then (k', v') else kv)) k
      = refHas q k := by
  induction q with
  | nil => rfl
  | cons kv rest ih =>
      by_cases hk : kv.1 = k'
      · simp [refHas_cons, hk, ih]
      · simp [refHas_cons, hk, ih]

lemma refGet_append_singleton_ne (q : List (K × V)) (k' k : K) (v' : V)
    (h : k' ≠ k) : refGet (q ++ [(k', v')]) k = refGet q k := by
  induction q with
  | nil =>
      show refGet [(k', v')] k = refGet [] k
      rw [refGet_cons, if_neg h]
  | cons kv rest ih => by_cases hk : kv.1 = k <;> simp [refGet_cons, hk, ih]

lemma refHas_append_singleton_ne (q : List (K × V)) (k' k : K) (v' : V)
    (h : k' ≠ k) : refHas (q ++ [(k', v')]) k = refHas q k := by
  induction q with
  | nil => simp [refHas, h]
  | cons kv rest ih => simp [refHas_cons, ih]

lemma refGet_refDel_ne (q : List (K × V)) (k' k : K) (h : k' ≠ k) :
    refGet (refDel q k') k = refGet q k := by
  induction q with
  | nil => rfl
  | cons kv rest ih =>
      by_cases hk : kv.1 = k'
      · simp [refDel, refGet, hk, ih, h]
      · simp [refDel, refGet, hk, ih]

lemma refHas_refDel_ne (q : List (K × V)) (k' k : K) (h : k' ≠ k) :
    refHas (refDel q k') k = refHas q k := by
  induction q with
  | nil => rfl
  | cons kv rest ih =>
      by_cases hk : kv.1 = k'
      · simp [refDel, refHas_cons, hk, ih, h]
      · simp [refDel, refHas_cons, hk, ih]

/-- One reference-model step by an operation that does not touch `k`
preserves the binding of `k` to `v` (among present keys). -/
lemma binding_preserved_ref (c : ℕ) (q : List (K × V)) (k : K) (v : V)
    (op : Op K V) (hop : UntouchedBy k op) (hnd : (q.map Prod.fst).Nodup)
    (h : refHas q k = true → refGet q k = some v) :
    refHas (refStep c q op) k = true → refGet (refStep c q op) k = some v := by
  cases op with
  | clear =>
      intro hh
      simp [refStep, refHas] at hh
  | del k' =>
      have hne : k' ≠ k := hop
      intro hh
      simp only [refStep] at hh ⊢
      rw [refGet_refDel_ne q k' k hne]
      apply h
      rwa [refHas_refDel_ne q k' k hne] at hh
  | set k' v' =>
      have hne : k' ≠ k := hop
      intro hh
      simp only [refStep, refSet] at hh ⊢
      by_cases hx : refHas q k' = true
      · rw [if_pos hx] at hh ⊢
        rw [refGet_upd_ne q k' k v' hne]
        apply h
        rwa [refHas_upd q k' v' k] at hh
      · rw [if_neg hx] at hh ⊢
        by_cases hfull : c ≤ q.length
        · rw [if_pos hfull] at hh ⊢
          rw [refGet_append_singleton_ne _ k' k v' hne]
          rw [refHas_append_singleton_ne _ k' k v' hne] at hh
          rcases q with _ | ⟨kv0, rest⟩
          · simp [refHas] at hh
          · simp only [List.drop_succ_cons, List.drop_zero] at hh ⊢
            have hk0 : kv0.1 ≠ k := by
              intro e
              rw [List.map_cons, List.nodup_cons] at hnd
              apply hnd.1
              rw [e]
              rw [refHas_iff] at hh
              exact hh
            have hhq : refHas (kv0 :: rest) k = true := by
              rw [refHas_iff, List.map_cons]
              rw [refHas_iff] at hh
              exact List.mem_cons_of_mem _ hh
            have h2 := h hhq
            rw [show refGet (kv0 :: rest) k = refGet rest k from by
              simp [refGet, hk0]] at h2
            exact h2
        · rw [if_neg hfull] at hh ⊢
          rw [refGet_append_singleton_ne q k' k v' hne]
          rw [refHas_append_singleton_ne q k' k v' hne] at hh
          exact h hh

/-- Running operations that do not touch `k` preserves the binding of `k`
to `v` for as long as `k` stays present. -/
lemma runOps_preserves_binding (c : ℕ) (s : SizeLimitedMap K V) (k : K) (v : V)
    (ops : List (Op K V)) (hinv : Inv c s)
    (hops : ∀ op ∈ ops, UntouchedBy k op)
    (h : mapHas s.entries k = true → mapGet s.entries k = some v) :
    mapHas (runOps s ops).entries k = true
      → mapGet (runOps s ops).entries k = some v := by
  induction ops generalizing s with
  | nil => exact h
  | cons op rest ih =>
      obtain ⟨h1, h2⟩ := step_sim c s op hinv
      show mapHas (runOps (step s op) rest).entries k = true
          → mapGet (runOps (step s op) rest).entries k = some v
      apply ih (step s op) h1 (fun o ho => hops o (List.mem_cons_of_mem _ ho))
      intro hh
      rw [mapHas_eq_refHas, h2] at hh
      rw [mapGet_eq_refGet, h2]
      refine binding_preserved_ref c _ k v op (hops op (List.mem_cons_self _ _))
        hinv.nodup ?_ hh
      intro hq
      rw [← mapHas_eq_refHas] at hq
      rw [← mapGet_eq_refGet]
      exact h hq

/-- Setting a list of pairwise-distinct fresh keys in the reference model
keeps exactly the most recent `c` entries. -/
lemma refRun_sets_drop (c : ℕ) (hc : 1 ≤ c) (l : List (K × V)) :
    ∀ q : List (K × V), ((q ++ l).map Prod.fst).Nodup → q.length ≤ c →
      refRun c q (l.map (fun kv => Op.set kv.1 kv.2))
        = (q ++ l).drop (q.length + l.length - c) := by
  induction l with
  | nil =>
      intro q hnd hq
      have h0 : q.length + ([] : List (K × V)).length - c = 0 := by
        have h1 : ([] : List (K × V)).length = 0 := rfl
        omega
      rw [List.map_nil, h0, List.append_nil, List.drop_zero]
      rfl
  | cons x xs ih =>
      intro q hnd hq
      have hnd' := hnd
      rw [List.map_append, List.map_cons, List.nodup_append] at hnd'
      obtain ⟨hndq, hndr, hdisj⟩ := hnd'
      have hx1 : x.1 ∉ q.map Prod.fst := fun hmem =>
        hdisj hmem (List.mem_cons_self _ _)
      have hhas : refHas q x.1 = false := by
        have h4 : ¬(refHas q x.1 = true) := by
          rw [refHas_iff]
          exact hx1
        simpa using h4
      show refRun c (refSet c q x.1 x.2) (xs.map (fun kv => Op.set kv.1 kv.2))
          = (q ++ x :: xs).drop (q.length + (x :: xs).length - c)
      by_cases hfull : c ≤ q.length
      · have hqc : q.length = c := le_antisymm hq hfull
        rcases q with _ | ⟨a, q'⟩
        · rw [List.length_nil] at hqc
          omega
        · have hrs : refSet c (a :: q') x.1 x.2 = q' ++ [x] := by
            unfold refSet
            rw [if_neg (by simp [hhas]), if_pos hfull]
            simp
          rw [hrs]
          have hn2 : (((q' ++ [x]) ++ xs).map Prod.fst).Nodup := by
            rw [List.append_assoc, List.singleton_append]
            have h5 := hnd
            rw [show ((a :: q') ++ x :: xs) = a :: (q' ++ x :: xs) from rfl,
              List.map_cons, List.nodup_cons] at h5
            exact h5.2
          have h8 : (q' ++ [x]).length = q'.length + 1 := by simp
          have h9 : (a :: q').length = q'.length + 1 := by simp
          have hq2 : (q' ++ [x]).length ≤ c := by omega
          rw [ih (q' ++ [x]) hn2 hq2]
          rw [List.append_assoc, List.singleton_append,
            show (a :: q') ++ x :: xs = a :: (q' ++ x :: xs) from rfl]
          have h10 : (x :: xs).length = xs.length + 1 := by simp
          rw [show (q' ++ [x]).length + xs.length - c = xs.length from by omega,
            show (a :: q').length + (x :: xs).length - c = xs.length + 1 from by omega,
            List.drop_succ_cons]
      · have hrs : refSet c q x.1 x.2 = q ++ [x] := by
          unfold refSet
          rw [if_neg (by simp [hhas]), if_neg hfull]
        rw [hrs]
        have hn2 : (((q ++ [x]) ++ xs).map Prod.fst).Nodup := by
          rw [List.append_assoc, List.singleton_append]
          exact hnd
        have h8 : (q ++ [x]).length = q.length + 1 := by simp
        have hq2 : (q ++ [x]).length ≤ c := by omega
        rw [ih (q ++ [x]) hn2 hq2, List.append_assoc, List.singleton_append]
        congr 1
        have h10 : (x :: xs).length = xs.length + 1 := by simp
        omega

/-! ### The claims -/

/-- C1: for every capacity c ≥ 1, a map constructed as `new(c)` with no
initial entries satisfies `size ≤ c` after every call in every finite
sequence of `set` and `delete` operations with arbitrary keys and values
(proved for all operation sequences, `clear` included; every prefix of a
sequence is itself a sequence, so the bound holds after every call). -/
theorem C1_capacity_invariant (c : ℕ) (hc : 1 ≤ c) (s₀ : SizeLimitedMap K V)
    (hnew : SizeLimitedMap.new (JSValue.number (JSNum.finite (c : ℚ)))
      ([] : List (K × V)) = Except.ok s₀)
    (ops : List (Op K V)) :
    (runOps s₀ ops).size ≤ c := by
  rw [new_nat_ok c hc] at hnew
  injection hnew with hnew
  subst hnew
  exact (run_sim c (fresh c) ops (inv_fresh c hc)).1.size_le

theorem C1_capacity_invariant_witness :
    (1 ≤ 3 ∧ SizeLimitedMap.new (JSValue.number (JSNum.finite ((3 : ℕ) : ℚ)))
        ([] : List (ℕ × ℕ)) = Except.ok (fresh 3))
      ∧ (runOps (fresh 3)
          [Op.set 0 0, Op.set 1 1, Op.set 2 2, Op.set 3 3, Op.del 1]).size ≤ 3 :=
  ⟨⟨by decide, new_nat_ok 3 (by decide)⟩,
    C1_capacity_invariant 3 (by decide) (fresh 3) (new_nat_ok 3 (by decide))
      [Op.set 0 0, Op.set 1 1, Op.set 2 2, Op.set 3 3, Op.del 1]⟩

/-- C2: the claim states that the constructor loads `initial_entries`
through the same logic as sequential `set` calls, evicting the
earliest-supplied entries so that only the most recent `capacity` entries
remain and `size ≤ capacity` holds right after construction.  The code
instead passes the entries straight to `new Map(entries)` with no capacity
enforcement: constructing with capacity 1 and the two distinct initial
entries `[(0, 10), (1, 20)]` yields a map of size 2 with both keys still
present, contradicting the claim (and the class's own documented fixed
max size). -/
theorem C2_constructor_entries_overflow :
    (SizeLimitedMap.new (JSValue.number (JSNum.finite 1))
        [((0 : ℕ), (10 : ℕ)), (1, 20)]).toOption.map
      (fun s => (s.size, s.has 0, s.has 1)) = some (2, true, true) := by
  decide

/-- C3: for every capacity N ≥ 1 and every interleaving of `set` and
`delete` operations starting from a fresh map, the observable container
state — the entry list in insertion order, hence the key set, the values
and the order — equals the state of the reference model that keeps an
explicit ordered queue, appends new keys at the back, and evicts the queue
head whenever inserting a new key would exceed N. -/
theorem C3_model_equivalence (c : ℕ) (hc : 1 ≤ c) (ops : List (Op K V))
    (hops : ∀ op ∈ ops, op ≠ Op.clear) :
    SizeLimitedMap.entriesList (runOps (fresh c) ops) = refRun c [] ops :=
  (run_sim c (fresh c) ops (inv_fresh c hc)).2

theorem C3_model_equivalence_witness :
    (1 ≤ 2 ∧ (∀ op ∈ ([Op.set 5 1, Op.set 6 2, Op.set 7 3, Op.del 6] :
        List (Op ℕ ℕ)), op ≠ Op.clear))
      ∧ SizeLimitedMap.entriesList
          (runOps (fresh 2) [Op.set 5 1, Op.set 6 2, Op.set 7 3, Op.del 6])
        = refRun 2 [] [Op.set 5 1, Op.set 6 2, Op.set 7 3, Op.del 6] :=
  ⟨⟨by decide, by decide⟩,
    C3_model_equivalence 2 (by decide) _ (by decide)⟩

/-- C4: in every state reachable from a fresh construction by `set`,
`delete` and `clear` calls, whenever `set` is called on a new key while
`size = capacity`, advancing the eviction cursor yields a
currently-present key; the exhaustion branch (iterator finished, nothing
deleted, size exceeding capacity) is unreachable. -/
theorem C4_cursor_yields_present (c : ℕ) (hc : 1 ≤ c)
    (ops : List (Op K V)) (k : K)
    (hnot : (runOps (fresh c) ops).has k = false)
    (hfullsz : (runOps (fresh c) ops).size = c) :
    ∃ k', (iterNext (runOps (fresh c) ops).entries
        (runOps (fresh c) ops).keysIterator).1 = some k'
      ∧ (runOps (fresh c) ops).has k' = true := by
  have hinv := (run_sim c (fresh c) ops (inv_fresh c hc)).1
  have hpos : 0 < (liveEntries (runOps (fresh c) ops).entries).length := by
    have h1 : mapSize (runOps (fresh c) ops).entries = c := hfullsz
    show 0 < mapSize (runOps (fresh c) ops).entries
    omega
  rcases hl : liveEntries (runOps (fresh c) ops).entries with _ | ⟨⟨k₀, v₀⟩, rest⟩
  · rw [hl] at hpos
    simp at hpos
  obtain ⟨j, hiter, _, _, _⟩ := evict_step c (runOps (fresh c) ops) hinv k₀ v₀ rest hl
  refine ⟨k₀, by rw [hiter], ?_⟩
  show mapHas (runOps (fresh c) ops).entries k₀ = true
  rw [mapHas_iff, hl, List.map_cons]
  exact List.mem_cons_self _ _

theorem C4_cursor_yields_present_witness :
    (1 ≤ 1 ∧ (runOps (K := ℕ) (V := ℕ) (fresh 1) [Op.set 0 0]).has 5 = false
        ∧ (runOps (K := ℕ) (V := ℕ) (fresh 1) [Op.set 0 0]).size = 1)
      ∧ ∃ k', (iterNext (runOps (K := ℕ) (V := ℕ) (fresh 1) [Op.set 0 0]).entries
          (runOps (K := ℕ) (V := ℕ) (fresh 1) [Op.set 0 0]).keysIterator).1 = some k'
        ∧ (runOps (K := ℕ) (V := ℕ) (fresh 1) [Op.set 0 0]).has k' = true :=
  ⟨⟨by decide, by decide, by decide⟩,
    C4_cursor_yields_present 1 (by decide) [Op.set 0 0] 5 (by decide) (by decide)⟩

/-- C5: inserting c + 1 distinct keys in order into a fresh map of
capacity c ≥ 1 leaves the first key absent and exactly the remaining c
entries present, in insertion order. -/
theorem C5_fifo_order (c : ℕ) (hc : 1 ≤ c) (k₁ : K) (v₁ : V)
    (rest : List (K × V)) (hlen : rest.length = c)
    (hnd : (((k₁, v₁) :: rest).map Prod.fst).Nodup) :
    (runOps (fresh c)
        (((k₁, v₁) :: rest).map (fun kv => Op.set kv.1 kv.2))).has k₁ = false
      ∧ SizeLimitedMap.entriesList
          (runOps (fresh c) (((k₁, v₁) :: rest).map (fun kv => Op.set kv.1 kv.2)))
        = rest := by
  have hsim := (run_sim c (fresh c)
    (((k₁, v₁) :: rest).map (fun kv => Op.set kv.1 kv.2)) (inv_fresh c hc)).2
  have e0 : liveEntries (fresh (K := K) (V := V) c).entries = [] := rfl
  rw [e0] at hsim
  have hdrop := refRun_sets_drop c hc ((k₁, v₁) :: rest) [] (by simpa using hnd)
    (by simp)
  rw [List.nil_append] at hdrop
  have hcount : ([] : List (K × V)).length + ((k₁, v₁) :: rest).length - c = 1 := by
    have e1 : ([] : List (K × V)).length = 0 := rfl
    have e2 : ((k₁, v₁) :: rest).length = rest.length + 1 := by simp
    omega
  rw [hcount, List.drop_succ_cons, List.drop_zero] at hdrop
  constructor
  · have h4 : ¬(mapHas (runOps (fresh c)
        (((k₁, v₁) :: rest).map (fun kv => Op.set kv.1 kv.2))).entries k₁ = true) := by
      rw [mapHas_iff, hsim, hdrop]
      rw [List.map_cons, List.nodup_cons] at hnd
      exact hnd.1
    show mapHas (runOps (fresh c)
        (((k₁, v₁) :: rest).map (fun kv => Op.set kv.1 kv.2))).entries k₁ = false
    simpa using h4
  · show liveEntries (runOps (fresh c)
        (((k₁, v₁) :: rest).map (fun kv => Op.set kv.1 kv.2))).entries = rest
    rw [hsim, hdrop]

theorem C5_fifo_order_witness :
    (1 ≤ 3 ∧ ([((1 : ℕ), (2 : ℕ)), (2, 3), (3, 4)] : List (ℕ × ℕ)).length = 3
        ∧ ((((0 : ℕ), (1 : ℕ)) :: [(1, 2), (2, 3), (3, 4)]).map Prod.fst).Nodup)
      ∧ ((runOps (fresh 3)
            ((((0 : ℕ), (1 : ℕ)) :: [(1, 2), (2, 3), (3, 4)]).map
              (fun kv => Op.set kv.1 kv.2))).has 0 = false
        ∧ SizeLimitedMap.entriesList
            (runOps (fresh 3)
              ((((0 : ℕ), (1 : ℕ)) :: [(1, 2), (2, 3), (3, 4)]).map
                (fun kv => Op.set kv.1 kv.2)))
          = [(1, 2), (2, 3), (3, 4)])
      ∧ (runOps (fresh 3)
            ((((0 : ℕ), (1 : ℕ)) :: [(1, 2), (2, 3), (3, 4)]).map
              (fun kv => Op.set kv.1 kv.2))).size = 3
      ∧ (runOps (fresh 3)
            ((((0 : ℕ), (1 : ℕ)) :: [(1, 2), (2, 3), (3, 4)]).map
              (fun kv => Op.set kv.1 kv.2))).has 1 = true
      ∧ (runOps (fresh 3)
            ((((0 : ℕ), (1 : ℕ)) :: [(1, 2), (2, 3), (3, 4)]).map
              (fun kv => Op.set kv.1 kv.2))).has 2 = true
      ∧ (runOps (fresh 3)
            ((((0 : ℕ), (1 : ℕ)) :: [(1, 2), (2, 3), (3, 4)]).map
              (fun kv => Op.set kv.1 kv.2))).has 3 = true :=
  ⟨⟨by decide, by decide, by decide⟩,
    C5_fifo_order 3 (by decide) 0 1 [(1, 2), (2, 3), (3, 4)] (by decide) (by decide),
    by decide, by decide, by decide, by decide⟩

/-- C6: `set` on an already-present key overwrites the value in place:
afterwards `get` returns the new value, the size is unchanged, the key
sequence in insertion order is literally unchanged (so no eviction occurs,
no other key is removed, and the key's position relative to all untouched
keys is the same), and every other key reads the same value as before. -/
theorem C6_overwrite_in_place (s : SizeLimitedMap K V) (k : K) (v : V)
    (h : s.has k = true) :
    (s.set k v).get k = some v
      ∧ (s.set k v).size = s.size
      ∧ SizeLimitedMap.keysList (s.set k v) = SizeLimitedMap.keysList s
      ∧ ∀ k', k' ≠ k → (s.set k v).get k' = s.get k' := by
  have hset := set_of_has s k v h
  rw [hset]
  refine ⟨?_, ?_, ?_, ?_⟩
  · show mapGet (mapSetRaw s.entries k v) k = some v
    exact mapGet_setRaw_self s.entries k v
  · show mapSize (mapSetRaw s.entries k v) = mapSize s.entries
    exact mapSize_setRaw_of_has s.entries k v h
  · show (liveEntries (mapSetRaw s.entries k v)).map Prod.fst
        = (liveEntries s.entries).map Prod.fst
    exact keys_setRaw_of_has s.entries k v h
  · intro k' hk'
    show mapGet (mapSetRaw s.entries k v) k' = mapGet s.entries k'
    exact mapGet_setRaw_ne s.entries k k' v hk'

theorem C6_overwrite_in_place_witness :
    ((fresh (K := ℕ) (V := ℕ) 2).set 7 1).has 7 = true
      ∧ ((((fresh (K := ℕ) (V := ℕ) 2).set 7 1).set 7 99).get 7 = some 99
        ∧ (((fresh (K := ℕ) (V := ℕ) 2).set 7 1).set 7 99).size
            = ((fresh (K := ℕ) (V := ℕ) 2).set 7 1).size
        ∧ SizeLimitedMap.keysList (((fresh (K := ℕ) (V := ℕ) 2).set 7 1).set 7 99)
            = SizeLimitedMap.keysList ((fresh (K := ℕ) (V := ℕ) 2).set 7 1)
        ∧ ∀ k', k' ≠ 7 → (((fresh (K := ℕ) (V := ℕ) 2).set 7 1).set 7 99).get k'
            = ((fresh (K := ℕ) (V := ℕ) 2).set 7 1).get k') :=
  ⟨by decide, C6_overwrite_in_place ((fresh 2).set 7 1) 7 99 (by decide)⟩

/-- C7: on every reachable state, `delete` of a present key returns true,
decrements the size by exactly one, and makes the key absent; on an absent
key it returns false and leaves the whole state unchanged; and `delete`
never advances the eviction cursor (the iterator field is untouched, so a
later eviction simply skips the emptied slot, as proved by the other
claims about reachable states). -/
theorem C7_delete_correct (c : ℕ) (hc : 1 ≤ c) (ops : List (Op K V)) (k : K) :
    ((runOps (fresh c) ops).has k = true →
        ((runOps (fresh c) ops).delete k).1 = true
          ∧ ((runOps (fresh c) ops).delete k).2.size + 1 = (runOps (fresh c) ops).size
          ∧ ((runOps (fresh c) ops).delete k).2.has k = false)
      ∧ ((runOps (fresh c) ops).has k = false →
        ((runOps (fresh c) ops).delete k).1 = false
          ∧ ((runOps (fresh c) ops).delete k).2 = runOps (fresh c) ops)
      ∧ ((runOps (fresh c) ops).delete k).2.keysIterator
          = (runOps (fresh c) ops).keysIterator := by
  have hinv := (run_sim c (fresh c) ops (inv_fresh c hc)).1
  refine ⟨?_, ?_, rfl⟩
  · intro hh
    refine ⟨hh, ?_, ?_⟩
    · show mapSize (mapDeleteRaw (runOps (fresh c) ops).entries k) + 1
          = mapSize (runOps (fresh c) ops).entries
      exact (mapSize_deleteRaw_of_has _ k hh).symm
    · show mapHas (mapDeleteRaw (runOps (fresh c) ops).entries k) k = false
      exact mapHas_deleteRaw_self _ k hinv.nodup
  · intro hh
    exact ⟨hh, delete_absent _ k hh⟩

theorem C7_delete_correct_witness :
    (1 ≤ 1)
      ∧ (((runOps (K := ℕ) (V := ℕ) (fresh 1) [Op.set 4 4]).has 4 = true →
          ((runOps (fresh 1) [Op.set 4 4]).delete 4).1 = true
            ∧ ((runOps (fresh 1) [Op.set 4 4]).delete 4).2.size + 1
                = (runOps (fresh 1) [Op.set 4 4]).size
            ∧ ((runOps (fresh 1) [Op.set 4 4]).delete 4).2.has 4 = false)
        ∧ ((runOps (K := ℕ) (V := ℕ) (fresh 1) [Op.set 4 4]).has 4 = false →
          ((runOps (fresh 1) [Op.set 4 4]).delete 4).1 = false
            ∧ ((runOps (fresh 1) [Op.set 4 4]).delete 4).2
                = runOps (fresh 1) [Op.set 4 4])
        ∧ ((runOps (K := ℕ) (V := ℕ) (fresh 1) [Op.set 4 4]).delete 4).2.keysIterator
            = (runOps (fresh 1) [Op.set 4 4]).keysIterator) :=
  ⟨by decide, C7_delete_correct 1 (by decide) [Op.set 4 4] 4⟩

/-- C8: the constructor raises exactly when the capacity argument is not a
number, is NaN, is less than 1, or is infinite; in particular `new(0)`,
`new(-1)`, `new(NaN)` and `new(Infinity)` fail while `new(1)` succeeds.
Every other operation of the embedding (`set`, `get`, `has`, `delete`,
`clear`, `size`, the iteration accessors) is a total function returning a
plain value, so construction is the only operation with an error
outcome. -/
theorem C8_constructor_validation :
    (∀ (cap : JSValue) (entries : List (K × V)),
        (∃ e, SizeLimitedMap.new cap entries = Except.error e)
          ↔ (cap = JSValue.notNumber ∨ cap = JSValue.number JSNum.nan
              ∨ cap = JSValue.number JSNum.posInf
              ∨ cap = JSValue.number JSNum.negInf
              ∨ ∃ q, cap = JSValue.number (JSNum.finite q) ∧ q < 1))
      ∧ (∃ e, SizeLimitedMap.new (JSValue.number (JSNum.finite 0))
          ([] : List (K × V)) = Except.error e)
      ∧ (∃ e, SizeLimitedMap.new (JSValue.number (JSNum.finite (-1)))
          ([] : List (K × V)) = Except.error e)
      ∧ (∃ e, SizeLimitedMap.new (JSValue.number JSNum.nan)
          ([] : List (K × V)) = Except.error e)
      ∧ (∃ e, SizeLimitedMap.new (JSValue.number JSNum.posInf)
          ([] : List (K × V)) = Except.error e)
      ∧ (∃ s, SizeLimitedMap.new (JSValue.number (JSNum.finite 1))
          ([] : List (K × V)) = Except.ok s) := by
  refine ⟨?_, ?_, ?_, ?_, ?_, ?_⟩
  · intro cap entries
    cases cap with
    | notNumber => simp [SizeLimitedMap.new]
    | number n =>
        cases n with
        | nan => simp [SizeLimitedMap.new, jsIsNaN]
        | posInf => simp [SizeLimitedMap.new, jsIsNaN, jsLtOne, jsIsFinite]
        | negInf => simp [SizeLimitedMap.new, jsIsNaN, jsLtOne, jsIsFinite]
        | finite q =>
            by_cases hq : q < 1
            · simp [SizeLimitedMap.new, jsIsNaN, jsLtOne, jsIsFinite, hq]
            · simp [SizeLimitedMap.new, jsIsNaN, jsLtOne, jsIsFinite, hq]
  · exact ⟨"Cache size must at least be 1, and finite.",
      by norm_num [SizeLimitedMap.new, jsIsNaN, jsLtOne, jsIsFinite]⟩
  · exact ⟨"Cache size must at least be 1, and finite.",
      by norm_num [SizeLimitedMap.new, jsIsNaN, jsLtOne, jsIsFinite]⟩
  · exact ⟨"Cache size must be a number",
      by norm_num [SizeLimitedMap.new, jsIsNaN]⟩
  · exact ⟨"Cache size must at least be 1, and finite.",
      by norm_num [SizeLimitedMap.new, jsIsNaN, jsLtOne, jsIsFinite]⟩
  · exact ⟨⟨1, [], ⟨0, false⟩⟩, by
      norm_num [SizeLimitedMap.new, jsIsNaN, jsLtOne, jsIsFinite, jsToRat,
        SizeLimitedMap.mapFromEntries]⟩

/-- C9: `clear` removes all entries (the size becomes 0), and the
behaviour afterwards is exactly that of a freshly constructed map: any
subsequent operation sequence produces the same observable contents as it
would from a fresh map, so the capacity bound and FIFO eviction order hold
and the next eviction removes the oldest post-clear key, even though the
implementation does not recreate the cursor on `clear`. -/
theorem C9_clear_behaves_fresh (c : ℕ) (hc : 1 ≤ c)
    (ops ops2 : List (Op K V)) :
    (SizeLimitedMap.clear (runOps (fresh c) ops)).size = 0
      ∧ SizeLimitedMap.entriesList
          (runOps (SizeLimitedMap.clear (runOps (fresh c) ops)) ops2)
        = SizeLimitedMap.entriesList (runOps (fresh c) ops2) := by
  have hinv := (run_sim c (fresh c) ops (inv_fresh c hc)).1
  obtain ⟨hinv2, hzero⟩ := clear_sim c _ hinv
  constructor
  · show (liveEntries (SizeLimitedMap.clear (runOps (fresh c) ops)).entries).length = 0
    rw [hzero]
    rfl
  · have h1 := (run_sim c _ ops2 hinv2).2
    have h2 := (run_sim c (fresh c) ops2 (inv_fresh c hc)).2
    rw [hzero] at h1
    have e0 : liveEntries (fresh (K := K) (V := V) c).entries = [] := rfl
    rw [e0] at h2
    show liveEntries (runOps (SizeLimitedMap.clear (runOps (fresh c) ops)) ops2).entries
        = liveEntries (runOps (fresh c) ops2).entries
    rw [h1, h2]

theorem C9_clear_behaves_fresh_witness :
    (1 ≤ 1)
      ∧ ((SizeLimitedMap.clear (runOps (K := ℕ) (V := ℕ) (fresh 1) [Op.set 0 0])).size = 0
        ∧ SizeLimitedMap.entriesList
            (runOps (SizeLimitedMap.clear (runOps (fresh 1) [Op.set 0 0]))
              [Op.set 1 1, Op.set 2 2])
          = SizeLimitedMap.entriesList (runOps (fresh 1) [Op.set 1 1, Op.set 2 2])) :=
  ⟨by decide, C9_clear_behaves_fresh 1 (by decide) [Op.set 0 0] [Op.set 1 1, Op.set 2 2]⟩

/-- C10: immediately after `set(k, v)` on any reachable state, `k` is
present with value `v` — the newly inserted key is never the entry evicted
by its own insertion, even when the map was full — and through any further
operations that neither overwrite nor delete `k`, `get k = v` continues to
hold for as long as `k` is present. -/
theorem C10_set_then_get (c : ℕ) (hc : 1 ≤ c) (ops : List (Op K V))
    (k : K) (v : V) (ops2 : List (Op K V))
    (hops2 : ∀ op ∈ ops2, UntouchedBy k op) :
    ((runOps (fresh c) ops).set k v).has k = true
      ∧ ((runOps (fresh c) ops).set k v).get k = some v
      ∧ (SizeLimitedMap.has (runOps ((runOps (fresh c) ops).set k v) ops2) k = true
          → SizeLimitedMap.get (runOps ((runOps (fresh c) ops).set k v) ops2) k
              = some v) := by
  have hinv := (run_sim c (fresh c) ops (inv_fresh c hc)).1
  obtain ⟨l, hl⟩ := set_entries_eq (runOps (fresh c) ops) k v
  have hget : ((runOps (fresh c) ops).set k v).get k = some v := by
    show mapGet ((runOps (fresh c) ops).set k v).entries k = some v
    rw [hl]
    exact mapGet_setRaw_self l k v
  refine ⟨?_, hget, ?_⟩
  · show mapHas ((runOps (fresh c) ops).set k v).entries k = true
    rw [hl]
    exact mapHas_setRaw_self l k v
  · have hinv2 := (set_sim c (runOps (fresh c) ops) k v hinv).1
    exact runOps_preserves_binding c ((runOps (fresh c) ops).set k v) k v ops2 hinv2
      hops2 (fun _ => hget)

theorem C10_set_then_get_witness :
    (1 ≤ 2 ∧ (∀ op ∈ ([Op.set 8 7, Op.del 8] : List (Op ℕ ℕ)), UntouchedBy 0 op))
      ∧ (((runOps (K := ℕ) (V := ℕ) (fresh 2) [Op.set 8 8]).set 0 5).has 0 = true
        ∧ ((runOps (fresh 2) [Op.set 8 8]).set 0 5).get 0 = some 5
        ∧ (SizeLimitedMap.has
            (runOps ((runOps (fresh 2) [Op.set 8 8]).set 0 5) [Op.set 8 7, Op.del 8])
              0 = true
          → SizeLimitedMap.get
              (runOps ((runOps (fresh 2) [Op.set 8 8]).set 0 5) [Op.set 8 7, Op.del 8])
                0 = some 5)) :=
  ⟨⟨by decide, by decide⟩,
    C10_set_then_get 2 (by decide) [Op.set 8 8] 0 5 [Op.set 8 7, Op.del 8] (by decide)⟩

end FixedSizeMap
